/-
Verification of the zoneinfo-db tzdata parser (src/lib.rs).

Shallow embedding: byte streams are lists of naturals (bytes, < 256 in any
real buffer) with an explicit cursor; `read_exact` / `seek` become pure
functions on that state; Rust `Result` becomes an explicit result type that
also records a panic outcome, because slice indexing such as `&chunk[..40]`
panics in Rust when the chunk is too short.  Functions that the source
defines with non-structural recursion (`chunks`, the slice binary search)
are embedded with an explicit fuel argument equal to a bound the source
guarantees, so that every definition evaluates by `decide` on concrete
inputs.
-/
import Mathlib

namespace ZoneInfoDb

/-- An in-memory byte stream with a seek cursor: models `impl Read + Seek`
(the whole underlying file plus the current position). -/
structure Stream where
  data : List Nat
  pos : Nat
deriving DecidableEq, Repr

/-- Error taxonomy of the parser: `ioError` models any `std::io::Error`
coming from a short read (`read_exact` hitting end of stream), and
`invalidMagic` models `Error::other("invalid tzdata header magic")`. -/
inductive TzError where
  | ioError
  | invalidMagic
deriving DecidableEq, Repr

/-- Outcome of running a fallible Rust function: `ok`, an `Err` carrying a
`TzError`, or a panic (out-of-bounds slice index). -/
inductive PResult (α : Type) where
  | ok (val : α)
  | error (e : TzError)
  | panicked
deriving DecidableEq, Repr

/-- Bytes still readable from the stream. -/
def Stream.avail (s : Stream) : Nat := s.data.length - s.pos

/-- Models `Read::read_exact` into a buffer of length `n`: succeeds returning the
next `n` bytes and the advanced stream exactly when `n` bytes are
available (an empty buffer always succeeds, as in Rust); otherwise fails
with an IO error (`UnexpectedEof`). -/
def Stream.readExact (s : Stream) (n : Nat) : PResult (List Nat × Stream) :=
  if n ≤ s.avail then
    .ok ((s.data.drop s.pos).take n, ⟨s.data, s.pos + n⟩)
  else .error .ioError

/-- Models `u32::from_be_bytes` on a 4-byte big-endian buffer (bytes < 256, so no
32-bit overflow can occur). -/
def u32be (bs : List Nat) : Nat := bs.foldl (fun acc b => acc * 256 + b) 0

/-- The database reserves 40 bytes for each id (`SIZEOF_TZNAME`). -/
def SIZEOF_TZNAME : Nat := 40

/-- Ohos tzdata index entry size: `name + offset + length`. -/
def SIZEOF_INDEX_ENTRY_OHOS : Nat := SIZEOF_TZNAME + 2 * 4

/-- Android tzdata index entry size:
`name + offset + length + raw_utc_offset(legacy)`. -/
def SIZEOF_INDEX_ENTRY_ANDROID : Nat := SIZEOF_TZNAME + 3 * 4

/-- The byte literal `b"tzdata"`. -/
def TZDATA_MAGIC_HEADER : List Nat := [116, 122, 100, 97, 116, 97]

/-- Source constant `TZDATA_VERSION_SIZE: usize = 12`. -/
def TZDATA_VERSION_SIZE : Nat := 12

/-- Header of the `tzdata` file. -/
structure TzDataHeader where
  version : List Nat
  index_offset : Nat
  data_offset : Nat
  zonetab_offset : Nat
deriving DecidableEq, Repr

/-- Models `TzDataHeader::new`: read a 12-byte magic block, check it starts with
`b"tzdata"` and that byte 11 is NUL, keep bytes 6..11 as the version, then
read three big-endian `u32` offsets. -/
def TzDataHeader.new (s : Stream) : PResult (TzDataHeader × Stream) :=
  match s.readExact TZDATA_VERSION_SIZE with
  | .error e => .error e
  | .panicked => .panicked
  | .ok (magic, s1) =>
    if magic.take 6 = TZDATA_MAGIC_HEADER ∧ magic.getD (TZDATA_VERSION_SIZE - 1) 0 = 0 then
      match s1.readExact 4 with
      | .error e => .error e
      | .panicked => .panicked
      | .ok (o1, s2) =>
        match s2.readExact 4 with
        | .error e => .error e
        | .panicked => .panicked
        | .ok (o2, s3) =>
          match s3.readExact 4 with
          | .error e => .error e
          | .panicked => .panicked
          | .ok (o3, s4) =>
            .ok (⟨(magic.drop 6).take 5, u32be o1, u32be o2, u32be o3⟩, s4)
    else .error .invalidMagic

/-- Index entry of the `tzdata` file. -/
structure TzDataIndex where
  name : List Nat
  offset : Nat
  length : Nat
deriving DecidableEq, Repr

/-- Indexes of the `tzdata` file. -/
structure TzDataIndexes where
  indexes : List TzDataIndex
deriving DecidableEq, Repr

/-- Models `CStr::from_bytes_until_nul(bs)` followed by `.to_bytes()`: the bytes
strictly before the first NUL, or `none` when the slice holds no NUL. -/
def bytesUntilNul : List Nat → Option (List Nat)
  | [] => none
  | b :: rest => if b = 0 then some [] else (bytesUntilNul rest).map (b :: ·)

/-- Fuel-indexed worker for `slice::chunks`: fuel bounds the number of
chunks (the list length suffices when `0 < n`). -/
def chunksGo (n : Nat) : Nat → List Nat → List (List Nat)
  | _, [] => []
  | 0, _ :: _ => []
  | fuel + 1, b :: rest => (b :: rest).take n :: chunksGo n fuel ((b :: rest).drop n)

/-- Models `slice::chunks(n)` for `0 < n`: non-overlapping chunks of size `n`, the
last possibly shorter (never empty). -/
def chunksList (n : Nat) (l : List Nat) : List (List Nat) := chunksGo n l.length l

/-- The closure applied to each chunk inside `TzDataIndexes::new`.
`&chunk[..SIZEOF_TZNAME]` panics when the chunk is shorter than 40 bytes;
when a NUL is found in those 40 bytes, `chunk[40..44]` and `chunk[44..48]`
panic when the chunk is shorter than 48 bytes. -/
def parseChunk (chunk : List Nat) : PResult (Option TzDataIndex) :=
  if chunk.length < SIZEOF_TZNAME then .panicked
  else
    match bytesUntilNul (chunk.take SIZEOF_TZNAME) with
    | none => .ok none
    | some nm =>
      if chunk.length < SIZEOF_TZNAME + 8 then .panicked
      else
        .ok (some ⟨nm, u32be ((chunk.drop SIZEOF_TZNAME).take 4),
          u32be ((chunk.drop (SIZEOF_TZNAME + 4)).take 4)⟩)

/-- Models the `.filter_map(..)` over the chunks, propagating a panic of the closure. -/
def parseChunks : List (List Nat) → PResult (List TzDataIndex)
  | [] => .ok []
  | c :: rest =>
    match parseChunk c with
    | .panicked => .panicked
    | .error e => .error e
    | .ok none => parseChunks rest
    | .ok (some entry) =>
      match parseChunks rest with
      | .panicked => .panicked
      | .error e => .error e
      | .ok entries => .ok (entry :: entries)

/-- Models `TzDataIndexes::new::<SIZEOF_INDEX_ENTRY>`: read
`data_offset.saturating_sub(index_offset)` bytes (`Nat` subtraction is
saturating), split into chunks of `sizeofIndexEntry` bytes and parse each. -/
def TzDataIndexes.new (sizeofIndexEntry : Nat) (s : Stream) (header : TzDataHeader) :
    PResult (TzDataIndexes × Stream) :=
  match s.readExact (header.data_offset - header.index_offset) with
  | .error e => .error e
  | .panicked => .panicked
  | .ok (buf, s1) =>
    match parseChunks (chunksList sizeofIndexEntry buf) with
    | .panicked => .panicked
    | .error e => .error e
    | .ok entries => .ok (⟨entries⟩, s1)

/-- Models `TzDataIndexes::new_android`. -/
def TzDataIndexes.new_android (s : Stream) (header : TzDataHeader) :
    PResult (TzDataIndexes × Stream) :=
  TzDataIndexes.new SIZEOF_INDEX_ENTRY_ANDROID s header

/-- Models `TzDataIndexes::new_ohos`. -/
def TzDataIndexes.new_ohos (s : Stream) (header : TzDataHeader) :
    PResult (TzDataIndexes × Stream) :=
  TzDataIndexes.new SIZEOF_INDEX_ENTRY_OHOS s header

/-- Models `Ord` on `&[u8]`: lexicographic byte comparison, a proper prefix being
smaller. -/
def lexCompare : List Nat → List Nat → Ordering
  | [], [] => .eq
  | [], _ :: _ => .lt
  | _ :: _, [] => .gt
  | a :: as, b :: bs => if a < b then .lt else if b < a then .gt else lexCompare as bs

/-- A placeholder entry used only as the (never reached) default of list
indexing inside the binary search. -/
def dummyIndex : TzDataIndex := ⟨[], 0, 0⟩

/-- Fuel-indexed worker for `slice::binary_search_by_key`: the classic
half-open-interval search, `mid = lo + (hi - lo) / 2`, comparing the entry
name against the key; fuel `hi - lo` suffices. -/
def bsearchGo (tbl : List TzDataIndex) (key : List Nat) :
    Nat → Nat → Nat → Option Nat
  | 0, _, _ => none
  | fuel + 1, lo, hi =>
    if lo < hi then
      match lexCompare (tbl.getD (lo + (hi - lo) / 2) dummyIndex).name key with
      | .lt => bsearchGo tbl key fuel (lo + (hi - lo) / 2 + 1) hi
      | .gt => bsearchGo tbl key fuel lo (lo + (hi - lo) / 2)
      | .eq => some (lo + (hi - lo) / 2)
    else none

/-- Models `TzDataIndexes::find_timezone`: binary search the (assumed sorted)
entries by name, returning the found entry. -/
def TzDataIndexes.find_timezone (t : TzDataIndexes) (timezone : List Nat) :
    Option TzDataIndex :=
  (bsearchGo t.indexes timezone t.indexes.length 0 t.indexes.length).map
    (fun i => t.indexes.getD i dummyIndex)

/-- Models `TzDataIndexes::find_tzdata`: seek to
`index.offset + header.data_offset` (`SeekFrom::Start`, always succeeds)
and read exactly `index.length` bytes. -/
def TzDataIndexes.find_tzdata (_t : TzDataIndexes) (s : Stream)
    (header : TzDataHeader) (index : TzDataIndex) : PResult (List Nat × Stream) :=
  match Stream.readExact ⟨s.data, index.offset + header.data_offset⟩ index.length with
  | .error e => .error e
  | .panicked => .panicked
  | .ok (buffer, s1) => .ok (buffer, s1)

/-- Models `find_tz_data_android`: header decode, index decode, lookup, extraction;
an absent name yields `ok none`. -/
def find_tz_data_android (s : Stream) (tz_name : List Nat) :
    PResult (Option (List Nat)) :=
  match TzDataHeader.new s with
  | .error e => .error e
  | .panicked => .panicked
  | .ok (header, s1) =>
    match TzDataIndexes.new_android s1 header with
    | .error e => .error e
    | .panicked => .panicked
    | .ok (index, s2) =>
      match index.find_timezone tz_name with
      | some entry =>
        match index.find_tzdata s2 header entry with
        | .error e => .error e
        | .panicked => .panicked
        | .ok (buf, _) => .ok (some buf)
      | none => .ok none

/-- Models `find_tz_data_ohos`: as `find_tz_data_android` with the OHOS entry size. -/
def find_tz_data_ohos (s : Stream) (tz_name : List Nat) :
    PResult (Option (List Nat)) :=
  match TzDataHeader.new s with
  | .error e => .error e
  | .panicked => .panicked
  | .ok (header, s1) =>
    match TzDataIndexes.new_ohos s1 header with
    | .error e => .error e
    | .panicked => .panicked
    | .ok (index, s2) =>
      match index.find_timezone tz_name with
      | some entry =>
        match index.find_tzdata s2 header entry with
        | .error e => .error e
        | .panicked => .panicked
        | .ok (buf, _) => .ok (some buf)
      | none => .ok none

/-- Spec-side description of how one full index record becomes an entry: an
entry is produced exactly when the first 40 bytes contain a NUL; its name is
the bytes strictly before the first NUL, its offset the big-endian u32 at
record bytes 40..44 and its length the big-endian u32 at bytes 44..48. -/
def specEntryOfChunk (chunk : List Nat) : Option TzDataIndex :=
  if 0 ∈ chunk.take 40 then
    some ⟨(chunk.take 40).takeWhile (fun b => b != 0),
      u32be ((chunk.drop 40).take 4), u32be ((chunk.drop 44).take 4)⟩
  else none

/-- Index decoding with the record stride the spec claims for the Android
variant (48 bytes); the implementation uses
`SIZEOF_INDEX_ENTRY_ANDROID = 52`. -/
def new_android_claimed (s : Stream) (header : TzDataHeader) :
    PResult (TzDataIndexes × Stream) :=
  TzDataIndexes.new 48 s header

/-- Index decoding with the record stride the spec claims for the OHOS
variant (44 bytes); the implementation uses `SIZEOF_INDEX_ENTRY_OHOS = 48`. -/
def new_ohos_claimed (s : Stream) (header : TzDataHeader) :
    PResult (TzDataIndexes × Stream) :=
  TzDataIndexes.new 44 s header

/-- The magic test of `TzDataHeader::new` as a predicate on the stream: the
next 12 bytes start with the literal `b"tzdata"` and byte 11 of them is NUL. -/
def magicOk (s : Stream) : Prop :=
  ((s.data.drop s.pos).take 12).take 6 = TZDATA_MAGIC_HEADER ∧
  ((s.data.drop s.pos).take 12).getD 11 0 = 0

instance magicOkDecidable (s : Stream) : Decidable (magicOk s) :=
  inferInstanceAs (Decidable
    (((s.data.drop s.pos).take 12).take 6 = TZDATA_MAGIC_HEADER ∧
     ((s.data.drop s.pos).take 12).getD 11 0 = 0))

/-- Strict ascending order of two entries by name, the sortedness the
on-disk format is assumed to satisfy. -/
def entryNameLt (a b : TzDataIndex) : Prop :=
  lexCompare a.name b.name = Ordering.lt

instance entryNameLtDecidable (a b : TzDataIndex) : Decidable (entryNameLt a b) :=
  inferInstanceAs (Decidable (lexCompare a.name b.name = Ordering.lt))

/-- The version bytes of the sample fixtures, ASCII for the five characters
of a version tag such as 2024a. -/
def sampleVersion : List Nat := [50, 48, 50, 52, 97]

/-- The 24 header bytes of concrete scenario A: magic block, then
big-endian 24, 21240, 272428. -/
def sampleHeaderBytes : List Nat :=
  [116, 122, 100, 97, 116, 97, 50, 48, 50, 52, 97, 0,
   0, 0, 0, 24, 0, 0, 82, 248, 0, 4, 40, 44]

/-- One full 52-byte Android index record: one-letter name, offset 7,
length 9, legacy raw UTC offset 0. -/
def androidRecordBytes : List Nat :=
  [65, 0] ++ List.replicate 38 0 ++ [0, 0, 0, 7, 0, 0, 0, 9, 0, 0, 0, 0]

/-- One full 48-byte OHOS index record: two-letter name, offset 0, length 2. -/
def ohosRecordBytes : List Nat :=
  [65, 65, 0] ++ List.replicate 37 0 ++ [0, 0, 0, 0, 0, 0, 0, 2]

/-- A complete tiny OHOS database: header with index_offset 24 and
data_offset 72, one index record, a 2-byte payload. -/
def sampleDbBytes : List Nat :=
  [116, 122, 100, 97, 116, 97, 50, 48, 50, 52, 97, 0,
   0, 0, 0, 24, 0, 0, 0, 72, 0, 4, 40, 44] ++ ohosRecordBytes ++ [99, 100]

/-- Header addressing a 52-byte index region starting at stream offset 0. -/
def hdrRegion52 : TzDataHeader := ⟨sampleVersion, 0, 52, 0⟩

/-- Header addressing a 48-byte index region starting at stream offset 0. -/
def hdrRegion48 : TzDataHeader := ⟨sampleVersion, 0, 48, 0⟩

/-- Header addressing a 1-byte index region: a single runt record. -/
def hdrRegion1 : TzDataHeader := ⟨sampleVersion, 0, 1, 0⟩

/-- Header whose data offset lies before its index offset. -/
def hdrInverted : TzDataHeader := ⟨sampleVersion, 20, 10, 0⟩

/-- A two-entry table sorted ascending by name. -/
def sampleTable : TzDataIndexes := ⟨[⟨[65], 1, 2⟩, ⟨[66], 3, 4⟩]⟩

/-- Byte-list comparison returns `eq` exactly on equal lists. -/
theorem lexCompare_eq_iff : ∀ (a b : List Nat), lexCompare a b = .eq ↔ a = b
  | [], [] => by simp [lexCompare]
  | [], _ :: _ => by simp [lexCompare]
  | _ :: _, [] => by simp [lexCompare]
  | a :: as, b :: bs => by
    simp only [lexCompare]
    rcases Nat.lt_trichotomy a b with h | h | h
    · have h' : a ≠ b := by omega
      simp [h, h']
    · subst h
      simp [Nat.lt_irrefl, lexCompare_eq_iff as bs]
    · have h1 : ¬ a < b := by omega
      have h' : a ≠ b := by omega
      simp [h1, h, h']

/-- Byte-list comparison of a list with itself is `eq`. -/
theorem lexCompare_self (a : List Nat) : lexCompare a a = .eq :=
  (lexCompare_eq_iff a a).mpr rfl

/-- Byte-list comparison is antisymmetric: `gt` one way is `lt` the other. -/
theorem lexCompare_gt_iff : ∀ (a b : List Nat),
    lexCompare a b = .gt ↔ lexCompare b a = .lt
  | [], [] => by simp [lexCompare]
  | [], _ :: _ => by simp [lexCompare]
  | _ :: _, [] => by simp [lexCompare]
  | a :: as, b :: bs => by
    simp only [lexCompare]
    rcases Nat.lt_trichotomy a b with h | h | h
    · have h' : ¬ b < a := by omega
      simp [h, h']
    · subst h
      simp only [Nat.lt_irrefl, if_false]
      exact lexCompare_gt_iff as bs
    · have h' : ¬ a < b := by omega
      simp [h, h']

/-- Byte-list strict order is transitive. -/
theorem lexCompare_lt_trans : ∀ (a b c : List Nat),
    lexCompare a b = .lt → lexCompare b c = .lt → lexCompare a c = .lt
  | [], b, [] => by
    intro _ h2
    cases b <;> simp [lexCompare] at h2
  | [], _, _ :: _ => by intro _ _; rfl
  | _ :: _, [], _ => by intro h1 _; simp [lexCompare] at h1
  | _ :: _, _ :: _, [] => by intro _ h2; simp [lexCompare] at h2
  | a :: as, b :: bs, c :: cs => by
    intro h1 h2
    simp only [lexCompare] at h1 h2 ⊢
    rcases Nat.lt_trichotomy a b with hab | hab | hab
    · rcases Nat.lt_trichotomy b c with hbc | hbc | hbc
      · have hac : a < c := by omega
        simp [hac]
      · subst hbc
        simp [hab]
      · have h' : ¬ b < c := by omega
        simp [h', hbc] at h2
    · subst hab
      simp only [Nat.lt_irrefl, if_false] at h1
      rcases Nat.lt_trichotomy a c with hac | hac | hac
      · simp [hac]
      · subst hac
        simp only [Nat.lt_irrefl, if_false] at h2 ⊢
        exact lexCompare_lt_trans as bs cs h1 h2
      · have h' : ¬ a < c := by omega
        simp [h', hac] at h2
    · have h' : ¬ a < b := by omega
      simp [h', hab] at h1

/-- Soundness of the binary-search worker: a returned position lies inside
the searched interval and its entry's name compares equal to the key. -/
theorem bsearchGo_sound (tbl : List TzDataIndex) (key : List Nat) :
    ∀ (fuel lo hi m : Nat), hi ≤ tbl.length →
      bsearchGo tbl key fuel lo hi = some m →
      lo ≤ m ∧ m < hi ∧ lexCompare (tbl.getD m dummyIndex).name key = .eq
  | 0, lo, hi, m => by
    intro _ h
    simp [bsearchGo] at h
  | fuel + 1, lo, hi, m => by
    intro hhi h
    simp only [bsearchGo] at h
    by_cases hlt : lo < hi
    · rw [if_pos hlt] at h
      have hd : (hi - lo) / 2 < hi - lo := Nat.div_lt_self (by omega) (by omega)
      cases hcmp : lexCompare (tbl.getD (lo + (hi - lo) / 2) dummyIndex).name key with
      | lt =>
        rw [hcmp] at h
        obtain ⟨h1, h2, h3⟩ := bsearchGo_sound tbl key fuel (lo + (hi - lo) / 2 + 1) hi m hhi h
        exact ⟨by omega, h2, h3⟩
      | gt =>
        rw [hcmp] at h
        obtain ⟨h1, h2, h3⟩ := bsearchGo_sound tbl key fuel lo (lo + (hi - lo) / 2) m
          (by omega) h
        exact ⟨h1, by omega, h3⟩
      | eq =>
        rw [hcmp] at h
        obtain rfl : lo + (hi - lo) / 2 = m := by
          injection h
        exact ⟨by omega, by omega, hcmp⟩
    · rw [if_neg hlt] at h
      simp at h

/-- Soundness of `find_timezone` alone: a positive result is an entry of
the table whose name equals the queried name, for any table whatsoever. -/
theorem find_timezone_sound (t : TzDataIndexes) (key : List Nat) (e : TzDataIndex)
    (h : t.find_timezone key = some e) : e ∈ t.indexes ∧ e.name = key := by
  unfold TzDataIndexes.find_timezone at h
  cases hb : bsearchGo t.indexes key t.indexes.length 0 t.indexes.length with
  | none => rw [hb] at h; simp at h
  | some m =>
    rw [hb] at h
    simp only [Option.map_some'] at h
    obtain ⟨h1, h2, h3⟩ := bsearchGo_sound t.indexes key _ _ _ _ le_rfl hb
    have hgm : t.indexes.getD m dummyIndex = t.indexes[m] :=
      List.getD_eq_getElem _ _ h2
    obtain rfl : t.indexes.getD m dummyIndex = e := by injection h
    constructor
    · rw [hgm]
      exact List.getElem_mem h2
    · exact (lexCompare_eq_iff _ _).mp h3

/-- Completeness of the binary-search worker on a sorted table: if the key
occurs at a position inside the searched interval, the search succeeds. -/
theorem bsearchGo_complete (tbl : List TzDataIndex) (key : List Nat)
    (hsorted : tbl.Pairwise entryNameLt) :
    ∀ (fuel lo hi i : Nat), hi ≤ tbl.length → hi - lo ≤ fuel →
      lo ≤ i → i < hi → (tbl.getD i dummyIndex).name = key →
      ∃ m, bsearchGo tbl key fuel lo hi = some m
  | 0, lo, hi, i => by
    intro _ hfuel hloi hihi _
    omega
  | fuel + 1, lo, hi, i => by
    intro hhi hfuel hloi hihi hname
    have hlt : lo < hi := by omega
    have hd : (hi - lo) / 2 < hi - lo := Nat.div_lt_self (by omega) (by omega)
    have hmidlen : lo + (hi - lo) / 2 < tbl.length := by omega
    have hilen : i < tbl.length := by omega
    rw [List.getD_eq_getElem tbl dummyIndex hilen] at hname
    simp only [bsearchGo, if_pos hlt]
    cases hcmp : lexCompare (tbl.getD (lo + (hi - lo) / 2) dummyIndex).name key with
    | eq => exact ⟨lo + (hi - lo) / 2, rfl⟩
    | lt =>
      rw [List.getD_eq_getElem tbl dummyIndex hmidlen] at hcmp
      have himid : lo + (hi - lo) / 2 < i := by
        by_contra hc
        rcases Nat.lt_or_ge i (lo + (hi - lo) / 2) with hi2 | hi2
        · have hp := List.pairwise_iff_getElem.mp hsorted i (lo + (hi - lo) / 2)
            hilen hmidlen hi2
          have hp' : lexCompare (tbl[i]).name (tbl[lo + (hi - lo) / 2]).name = .lt := hp
          rw [hname] at hp'
          have habs := lexCompare_lt_trans _ _ _ hcmp hp'
          rw [lexCompare_self] at habs
          exact absurd habs (by decide)
        · obtain rfl : i = lo + (hi - lo) / 2 := by omega
          rw [hname] at hcmp
          rw [lexCompare_self] at hcmp
          exact absurd hcmp (by decide)
      have hname2 : (tbl.getD i dummyIndex).name = key := by
        rw [List.getD_eq_getElem tbl dummyIndex hilen, hname]
      obtain ⟨m, hm⟩ := bsearchGo_complete tbl key hsorted fuel
        (lo + (hi - lo) / 2 + 1) hi i hhi (by omega) (by omega) hihi hname2
      exact ⟨m, hm⟩
    | gt =>
      rw [List.getD_eq_getElem tbl dummyIndex hmidlen] at hcmp
      have himid : i < lo + (hi - lo) / 2 := by
        by_contra hc
        rcases Nat.lt_or_ge (lo + (hi - lo) / 2) i with hi2 | hi2
        · have hp := List.pairwise_iff_getElem.mp hsorted (lo + (hi - lo) / 2) i
            hmidlen hilen hi2
          have hp' : lexCompare (tbl[lo + (hi - lo) / 2]).name (tbl[i]).name = .lt := hp
          rw [hname] at hp'
          rw [hp'] at hcmp
          exact absurd hcmp (by decide)
        · obtain rfl : i = lo + (hi - lo) / 2 := by omega
          rw [hname] at hcmp
          rw [lexCompare_self] at hcmp
          exact absurd hcmp (by decide)
      have hname2 : (tbl.getD i dummyIndex).name = key := by
        rw [List.getD_eq_getElem tbl dummyIndex hilen, hname]
      obtain ⟨m, hm⟩ := bsearchGo_complete tbl key hsorted fuel
        lo (lo + (hi - lo) / 2) i (by omega) (by omega) hloi himid hname2
      exact ⟨m, hm⟩

/-- Concatenating the chunks gives back the original list. -/
theorem chunksGo_flatten (n : Nat) (hn : 0 < n) :
    ∀ (fuel : Nat) (l : List Nat), l.length ≤ fuel → (chunksGo n fuel l).flatten = l
  | fuel, [] => by cases fuel <;> simp [chunksGo]
  | 0, b :: rest => by
    intro h
    simp at h
  | fuel + 1, b :: rest => by
    intro h
    simp only [chunksGo, List.flatten_cons]
    rw [chunksGo_flatten n hn fuel ((b :: rest).drop n)
      (by rw [List.length_drop]; simp at h ⊢; omega)]
    exact List.take_append_drop n (b :: rest)

/-- When the chunk size divides the list length, every chunk is full. -/
theorem chunksGo_length (n : Nat) (hn : 0 < n) :
    ∀ (fuel : Nat) (l : List Nat), l.length ≤ fuel → n ∣ l.length →
      ∀ c ∈ chunksGo n fuel l, c.length = n
  | fuel, [] => by cases fuel <;> simp [chunksGo]
  | 0, b :: rest => by
    intro h _ _ _
    simp at h
  | fuel + 1, b :: rest => by
    intro h hdvd c hc
    have hlen : n ≤ (b :: rest).length := Nat.le_of_dvd (by simp) hdvd
    simp only [chunksGo, List.mem_cons] at hc
    rcases hc with rfl | hc
    · simp only [List.length_take]
      simp at hlen ⊢
      omega
    · exact chunksGo_length n hn fuel ((b :: rest).drop n)
        (by rw [List.length_drop]; simp at h ⊢; omega)
        (by rw [List.length_drop]; exact Nat.dvd_sub' hdvd dvd_rfl) c hc

/-- Closed form of the NUL scanner: it succeeds exactly when a NUL is
present, returning the prefix of non-NUL bytes. -/
theorem bytesUntilNul_eq : ∀ (bs : List Nat),
    bytesUntilNul bs =
      if 0 ∈ bs then some (bs.takeWhile (fun b => b != 0)) else none
  | [] => by simp [bytesUntilNul]
  | b :: rest => by
    simp only [bytesUntilNul]
    by_cases hb : b = 0
    · subst hb
      simp [List.takeWhile_cons]
    · rw [bytesUntilNul_eq rest]
      by_cases h0 : 0 ∈ rest
      · simp [hb, h0, List.takeWhile_cons, Ne.symm hb]
      · have hb0 : ¬ (0 : Nat) = b := fun hh => hb hh.symm
        simp [hb, h0, hb0]

/-- On a full-size record (at least 48 bytes) the source's per-chunk
closure computes exactly the spec-side record description and never
panics. -/
theorem parseChunk_of_full (chunk : List Nat) (h : 48 ≤ chunk.length) :
    parseChunk chunk = .ok (specEntryOfChunk chunk) := by
  unfold parseChunk specEntryOfChunk SIZEOF_TZNAME
  rw [bytesUntilNul_eq]
  have h40 : ¬ chunk.length < 40 := by omega
  have h48 : ¬ chunk.length < 40 + 8 := by omega
  by_cases h0 : 0 ∈ chunk.take 40
  · simp [h40, h48, h0]
  · simp [h40, h0]

/-- When every chunk parses without panic or error, index parsing is the
order-preserving filter-map of the spec-side record description. -/
theorem parseChunks_filterMap : ∀ (cs : List (List Nat)),
    (∀ c ∈ cs, parseChunk c = .ok (specEntryOfChunk c)) →
    parseChunks cs = .ok (cs.filterMap specEntryOfChunk)
  | [] => by
    intro _
    simp [parseChunks]
  | c :: rest => by
    intro h
    have hc := h c (List.mem_cons_self c rest)
    have hrest := parseChunks_filterMap rest (fun d hd => h d (List.mem_cons_of_mem c hd))
    cases hspec : specEntryOfChunk c with
    | none =>
      rw [hspec] at hc
      simp only [parseChunks, hc, List.filterMap_cons, hspec]
      exact hrest
    | some entry =>
      rw [hspec] at hc
      simp only [parseChunks, hc, List.filterMap_cons, hspec, hrest]

/-- Successful `read_exact`: enough bytes are available. -/
theorem Stream.readExact_pos (s : Stream) (n : Nat) (h : n ≤ s.avail) :
    s.readExact n = .ok ((s.data.drop s.pos).take n, ⟨s.data, s.pos + n⟩) := by
  unfold Stream.readExact
  rw [if_pos h]

/-- Failing `read_exact`: not enough bytes are available. -/
theorem Stream.readExact_neg (s : Stream) (n : Nat) (h : ¬ n ≤ s.avail) :
    s.readExact n = .error .ioError := by
  unfold Stream.readExact
  rw [if_neg h]

/-- Closed form of the header parser: availability of 12 bytes, the magic
test on them, then availability of the full 24 bytes decide the outcome. -/
theorem TzDataHeader.new_eq (s : Stream) :
    TzDataHeader.new s =
      if 12 ≤ s.avail then
        if magicOk s then
          if 24 ≤ s.avail then
            .ok (⟨(((s.data.drop s.pos).take 12).drop 6).take 5,
                  u32be ((s.data.drop (s.pos + 12)).take 4),
                  u32be ((s.data.drop (s.pos + 16)).take 4),
                  u32be ((s.data.drop (s.pos + 20)).take 4)⟩,
                 ⟨s.data, s.pos + 24⟩)
          else .error .ioError
        else .error .invalidMagic
      else .error .ioError := by
  have havail : s.avail = s.data.length - s.pos := rfl
  by_cases h12 : 12 ≤ s.avail
  · have r12 := Stream.readExact_pos s 12 h12
    simp only [TzDataHeader.new, TZDATA_VERSION_SIZE, r12,
      show (12 : Nat) - 1 = 11 from rfl]
    by_cases hm : magicOk s
    · have hm' : ((s.data.drop s.pos).take 12).take 6 = TZDATA_MAGIC_HEADER ∧
        ((s.data.drop s.pos).take 12).getD 11 0 = 0 := hm
      rw [if_pos hm', if_pos h12, if_pos hm]
      by_cases h24 : 24 ≤ s.avail
      · have r2 := Stream.readExact_pos ⟨s.data, s.pos + 12⟩ 4
          (by show 4 ≤ s.data.length - (s.pos + 12); omega)
        have r3 := Stream.readExact_pos ⟨s.data, s.pos + 12 + 4⟩ 4
          (by show 4 ≤ s.data.length - (s.pos + 12 + 4); omega)
        have r4 := Stream.readExact_pos ⟨s.data, s.pos + 12 + 4 + 4⟩ 4
          (by show 4 ≤ s.data.length - (s.pos + 12 + 4 + 4); omega)
        rw [if_pos h24]
        simp only [r2, r3, r4]
      · rw [if_neg h24]
        by_cases h16 : 16 ≤ s.avail
        · by_cases h20 : 20 ≤ s.avail
          · have r2 := Stream.readExact_pos ⟨s.data, s.pos + 12⟩ 4
              (by show 4 ≤ s.data.length - (s.pos + 12); omega)
            have r3 := Stream.readExact_pos ⟨s.data, s.pos + 12 + 4⟩ 4
              (by show 4 ≤ s.data.length - (s.pos + 12 + 4); omega)
            have r4 := Stream.readExact_neg ⟨s.data, s.pos + 12 + 4 + 4⟩ 4
              (by show ¬ 4 ≤ s.data.length - (s.pos + 12 + 4 + 4); omega)
            simp only [r2, r3, r4]
          · have r2 := Stream.readExact_pos ⟨s.data, s.pos + 12⟩ 4
              (by show 4 ≤ s.data.length - (s.pos + 12); omega)
            have r3 := Stream.readExact_neg ⟨s.data, s.pos + 12 + 4⟩ 4
              (by show ¬ 4 ≤ s.data.length - (s.pos + 12 + 4); omega)
            simp only [r2, r3]
        · have r2 := Stream.readExact_neg ⟨s.data, s.pos + 12⟩ 4
            (by show ¬ 4 ≤ s.data.length - (s.pos + 12); omega)
          simp only [r2]
    · have hm' : ¬ (((s.data.drop s.pos).take 12).take 6 = TZDATA_MAGIC_HEADER ∧
        ((s.data.drop s.pos).take 12).getD 11 0 = 0) := hm
      rw [if_neg hm', if_pos h12, if_neg hm]
  · have r12 := Stream.readExact_neg s 12 h12
    simp only [TzDataHeader.new, TZDATA_VERSION_SIZE, r12]
    rw [if_neg h12]

/-- C3: header decoding fails with the magic format error exactly when 12
bytes are readable but they do not start with the literal tzdata or byte 11
is non-NUL (the offsets that follow play no role, so no further bytes are
consumed by the check); it fails with an IO error exactly when the magic
block or the offsets block is short; it succeeds otherwise; and it never
panics, so there are no other failure modes. -/
theorem claim_C3_header_errors (s : Stream) :
    (TzDataHeader.new s = .error .invalidMagic ↔ 12 ≤ s.avail ∧ ¬ magicOk s) ∧
    (TzDataHeader.new s = .error .ioError ↔
      s.avail < 12 ∨ (magicOk s ∧ s.avail < 24)) ∧
    ((∃ hdr s1, TzDataHeader.new s = .ok (hdr, s1)) ↔ magicOk s ∧ 24 ≤ s.avail) ∧
    TzDataHeader.new s ≠ .panicked := by
  rw [TzDataHeader.new_eq]
  by_cases h12 : 12 ≤ s.avail
  · by_cases hm : magicOk s
    · by_cases h24 : 24 ≤ s.avail
      · have f1 : ¬ s.avail < 12 := by omega
        have f2 : ¬ s.avail < 24 := by omega
        simp [h12, hm, h24, f1, f2]
      · have f1 : ¬ s.avail < 12 := by omega
        have f2 : s.avail < 24 := by omega
        simp [h12, hm, h24, f1, f2]
    · have f1 : ¬ s.avail < 12 := by omega
      simp [h12, hm, f1]
  · have f1 : s.avail < 12 := by omega
    have f2 : ¬ 24 ≤ s.avail := by omega
    simp [h12, f1, f2]

/-- C3 witness: a 12-byte stream of garbage bytes is rejected with the
magic format error. -/
theorem claim_C3_witness :
    TzDataHeader.new ⟨List.replicate 12 7, 0⟩ = .error .invalidMagic :=
  (claim_C3_header_errors ⟨List.replicate 12 7, 0⟩).1.mpr ⟨by decide, by decide⟩

/-- C4: on success the header decoder consumes exactly 24 bytes and
returns the version as bytes 6..11 of the 12-byte magic block together
with the three following big-endian u32 fields, in order index_offset,
data_offset, zonetab_offset. -/
theorem claim_C4_header_success (s : Stream) (hdr : TzDataHeader) (s1 : Stream)
    (h : TzDataHeader.new s = .ok (hdr, s1)) :
    s1.data = s.data ∧ s1.pos = s.pos + 24 ∧
    hdr.version = (((s.data.drop s.pos).take 12).drop 6).take 5 ∧
    hdr.index_offset = u32be ((s.data.drop (s.pos + 12)).take 4) ∧
    hdr.data_offset = u32be ((s.data.drop (s.pos + 16)).take 4) ∧
    hdr.zonetab_offset = u32be ((s.data.drop (s.pos + 20)).take 4) := by
  rw [TzDataHeader.new_eq] at h
  split_ifs at h with h12 hm h24
  injection h with h'
  injection h' with hh hs
  subst hh
  subst hs
  exact ⟨rfl, rfl, rfl, rfl, rfl, rfl⟩

/-- C4 witness: concrete scenario A, a header starting tzdata2024a
followed by the big-endian offsets 24, 21240, 272428, parses to version
2024a and exactly those offsets, consuming 24 bytes. -/
theorem claim_C4_witness :
    TzDataHeader.new ⟨sampleHeaderBytes, 0⟩ =
      .ok (⟨sampleVersion, 24, 21240, 272428⟩, ⟨sampleHeaderBytes, 24⟩) ∧
    ((⟨sampleHeaderBytes, 24⟩ : Stream).data = (⟨sampleHeaderBytes, 0⟩ : Stream).data ∧
     (⟨sampleHeaderBytes, 24⟩ : Stream).pos = (⟨sampleHeaderBytes, 0⟩ : Stream).pos + 24 ∧
     (⟨sampleVersion, 24, 21240, 272428⟩ : TzDataHeader).version =
       ((((⟨sampleHeaderBytes, 0⟩ : Stream).data.drop
           (⟨sampleHeaderBytes, 0⟩ : Stream).pos).take 12).drop 6).take 5 ∧
     (⟨sampleVersion, 24, 21240, 272428⟩ : TzDataHeader).index_offset =
       u32be (((⟨sampleHeaderBytes, 0⟩ : Stream).data.drop
         ((⟨sampleHeaderBytes, 0⟩ : Stream).pos + 12)).take 4) ∧
     (⟨sampleVersion, 24, 21240, 272428⟩ : TzDataHeader).data_offset =
       u32be (((⟨sampleHeaderBytes, 0⟩ : Stream).data.drop
         ((⟨sampleHeaderBytes, 0⟩ : Stream).pos + 16)).take 4) ∧
     (⟨sampleVersion, 24, 21240, 272428⟩ : TzDataHeader).zonetab_offset =
       u32be (((⟨sampleHeaderBytes, 0⟩ : Stream).data.drop
         ((⟨sampleHeaderBytes, 0⟩ : Stream).pos + 20)).take 4)) :=
  ⟨by decide, claim_C4_header_success ⟨sampleHeaderBytes, 0⟩
    ⟨sampleVersion, 24, 21240, 272428⟩ ⟨sampleHeaderBytes, 24⟩ (by decide)⟩

/-- C1 counterexample: the claimed strides (48 bytes for Android, 44 for
OHOS) disagree observably with the implementation. On a single full
Android record of 52 bytes the claimed 48-byte chunking leaves a 4-byte
runt and panics, while the implementation parses one entry; likewise for a
single full OHOS record of 48 bytes against the claimed 44-byte stride. -/
theorem claim_C1_counterexample :
    new_android_claimed ⟨androidRecordBytes, 0⟩ hdrRegion52 ≠
      TzDataIndexes.new_android ⟨androidRecordBytes, 0⟩ hdrRegion52 ∧
    new_ohos_claimed ⟨ohosRecordBytes, 0⟩ hdrRegion48 ≠
      TzDataIndexes.new_ohos ⟨ohosRecordBytes, 0⟩ hdrRegion48 := by
  decide

/-- C1 (amended): the record strides are 52 = 40 + 3×4 bytes for the
Android variant and 48 = 40 + 2×4 bytes for the OHOS variant; the two
decoders are the generic decoder at those strides, and chunking at either
stride partitions the buffer: concatenating the chunks restores it. -/
theorem claim_C1_amended :
    SIZEOF_INDEX_ENTRY_ANDROID = 40 + 3 * 4 ∧
    SIZEOF_INDEX_ENTRY_OHOS = 40 + 2 * 4 ∧
    (∀ (s : Stream) (hdr : TzDataHeader),
      TzDataIndexes.new_android s hdr = TzDataIndexes.new 52 s hdr ∧
      TzDataIndexes.new_ohos s hdr = TzDataIndexes.new 48 s hdr) ∧
    (∀ buf : List Nat,
      (chunksList 52 buf).flatten = buf ∧ (chunksList 48 buf).flatten = buf) := by
  refine ⟨rfl, rfl, fun s hdr => ⟨rfl, rfl⟩, fun buf => ⟨?_, ?_⟩⟩
  · exact chunksGo_flatten 52 (by omega) buf.length buf le_rfl
  · exact chunksGo_flatten 48 (by omega) buf.length buf le_rfl

/-- C2 (code bug): contrary to the claim, a runt record is not silently
dropped: on a 1-byte index region both variants evaluate the slice
chunk[..40] out of bounds, a panic, instead of skipping the runt. -/
theorem claim_C2_runt_panics :
    TzDataIndexes.new_android ⟨[7], 0⟩ hdrRegion1 = .panicked ∧
    TzDataIndexes.new_ohos ⟨[7], 0⟩ hdrRegion1 = .panicked := by
  decide

/-- C5: when the region splits into full records (either variant stride)
and the stream holds the region, decoding succeeds and produces, in
on-disk record order, exactly one entry per record whose first 40 bytes
contain a NUL — name the bytes before the first NUL, offset the big-endian
u32 at bytes 40..44, length the big-endian u32 at bytes 44..48 — while
records without a NUL are silently dropped. -/
theorem claim_C5_record_decoding (stride : Nat) (s : Stream) (hdr : TzDataHeader)
    (hstride : stride = SIZEOF_INDEX_ENTRY_OHOS ∨ stride = SIZEOF_INDEX_ENTRY_ANDROID)
    (hdvd : stride ∣ (hdr.data_offset - hdr.index_offset))
    (havl : hdr.data_offset - hdr.index_offset ≤ s.avail) :
    TzDataIndexes.new stride s hdr =
      .ok (⟨(chunksList stride ((s.data.drop s.pos).take
            (hdr.data_offset - hdr.index_offset))).filterMap specEntryOfChunk⟩,
          ⟨s.data, s.pos + (hdr.data_offset - hdr.index_offset)⟩) := by
  have h48 : 48 ≤ stride := by
    rcases hstride with rfl | rfl <;> decide
  have hpos : 0 < stride := by omega
  have r := Stream.readExact_pos s (hdr.data_offset - hdr.index_offset) havl
  have hbuflen : ((s.data.drop s.pos).take (hdr.data_offset - hdr.index_offset)).length =
      hdr.data_offset - hdr.index_offset := by
    unfold Stream.avail at havl
    simp only [List.length_take, List.length_drop]
    omega
  have hchunks : ∀ c ∈ chunksList stride
      ((s.data.drop s.pos).take (hdr.data_offset - hdr.index_offset)), c.length = stride := by
    intro c hc
    exact chunksGo_length stride hpos _ _ le_rfl (by rw [hbuflen]; exact hdvd) c hc
  have hp : parseChunks (chunksList stride
        ((s.data.drop s.pos).take (hdr.data_offset - hdr.index_offset))) =
      .ok ((chunksList stride ((s.data.drop s.pos).take
        (hdr.data_offset - hdr.index_offset))).filterMap specEntryOfChunk) := by
    apply parseChunks_filterMap
    intro c hc
    exact parseChunk_of_full c (by rw [hchunks c hc]; exact h48)
  simp only [TzDataIndexes.new, r, hp]

/-- C5 witness: a single full 48-byte OHOS record decodes to exactly the
spec-side description of that record. -/
theorem claim_C5_witness :
    ((48 : Nat) = SIZEOF_INDEX_ENTRY_OHOS ∨ (48 : Nat) = SIZEOF_INDEX_ENTRY_ANDROID) ∧
    (48 : Nat) ∣ (hdrRegion48.data_offset - hdrRegion48.index_offset) ∧
    hdrRegion48.data_offset - hdrRegion48.index_offset ≤
      (⟨ohosRecordBytes, 0⟩ : Stream).avail ∧
    TzDataIndexes.new 48 ⟨ohosRecordBytes, 0⟩ hdrRegion48 =
      .ok (⟨(chunksList 48 (((⟨ohosRecordBytes, 0⟩ : Stream).data.drop
            (⟨ohosRecordBytes, 0⟩ : Stream).pos).take
            (hdrRegion48.data_offset - hdrRegion48.index_offset))).filterMap
          specEntryOfChunk⟩,
        ⟨(⟨ohosRecordBytes, 0⟩ : Stream).data, (⟨ohosRecordBytes, 0⟩ : Stream).pos +
          (hdrRegion48.data_offset - hdrRegion48.index_offset)⟩) :=
  ⟨Or.inl rfl, ⟨1, rfl⟩, by decide,
   claim_C5_record_decoding 48 ⟨ohosRecordBytes, 0⟩ hdrRegion48
     (Or.inl rfl) ⟨1, rfl⟩ (by decide)⟩

/-- C6: index decoding reads exactly the saturated region length: an
inverted header (data offset at or before the index offset) decodes to an
empty table on which every lookup misses, a stream shorter than the region
fails with an IO error, and on success the cursor advances by exactly the
region length. This holds for every record stride, in particular both
variants. -/
theorem claim_C6_region (k : Nat) (s : Stream) (hdr : TzDataHeader) (name : List Nat) :
    (hdr.data_offset ≤ hdr.index_offset →
      TzDataIndexes.new k s hdr = .ok (⟨[]⟩, ⟨s.data, s.pos⟩) ∧
      TzDataIndexes.find_timezone ⟨[]⟩ name = none) ∧
    (s.avail < hdr.data_offset - hdr.index_offset →
      TzDataIndexes.new k s hdr = .error .ioError) ∧
    (∀ t s1, TzDataIndexes.new k s hdr = .ok (t, s1) →
      s1 = ⟨s.data, s.pos + (hdr.data_offset - hdr.index_offset)⟩) := by
  refine ⟨?_, ?_, ?_⟩
  · intro hle
    have hreg : hdr.data_offset - hdr.index_offset = 0 := by omega
    have r := Stream.readExact_pos s 0 (by omega)
    constructor
    · simp [TzDataIndexes.new, hreg, r, chunksList, chunksGo, parseChunks]
    · rfl
  · intro hlt
    have r := Stream.readExact_neg s (hdr.data_offset - hdr.index_offset) (by omega)
    simp only [TzDataIndexes.new, r]
  · by_cases hc : hdr.data_offset - hdr.index_offset ≤ s.avail
    · have r := Stream.readExact_pos s (hdr.data_offset - hdr.index_offset) hc
      intro t s1 h
      simp only [TzDataIndexes.new, r] at h
      cases hp : parseChunks (chunksList k ((s.data.drop s.pos).take
          (hdr.data_offset - hdr.index_offset))) with
      | error e =>
        rw [hp] at h
        exact absurd h (by simp)
      | panicked =>
        rw [hp] at h
        exact absurd h (by simp)
      | ok entries =>
        rw [hp] at h
        injection h with h'
        injection h' with h1 h2
        exact h2.symm
    · intro t s1 h
      have r := Stream.readExact_neg s (hdr.data_offset - hdr.index_offset) hc
      simp only [TzDataIndexes.new, r] at h
      exact absurd h (by simp)

/-- C6 witness: a header with data offset 10 before index offset 20
decodes to the empty table without error and a lookup in it misses. -/
theorem claim_C6_witness :
    hdrInverted.data_offset ≤ hdrInverted.index_offset ∧
    (TzDataIndexes.new 48 ⟨[1, 2, 3], 0⟩ hdrInverted = .ok (⟨[]⟩, ⟨[1, 2, 3], 0⟩) ∧
     TzDataIndexes.find_timezone ⟨[]⟩ [65] = none) :=
  ⟨by decide, (claim_C6_region 48 ⟨[1, 2, 3], 0⟩ hdrInverted [65]).1 (by decide)⟩

/-- C7: on a table sorted strictly ascending by name (hence with distinct
names), looking up the name of any decoded entry returns exactly that
entry, and looking up a name that no entry bears returns none. -/
theorem claim_C7_roundtrip (t : TzDataIndexes) (name : List Nat)
    (hsorted : t.indexes.Pairwise entryNameLt) :
    (∀ e ∈ t.indexes, t.find_timezone e.name = some e) ∧
    ((∀ e ∈ t.indexes, e.name ≠ name) → t.find_timezone name = none) := by
  constructor
  · intro e he
    obtain ⟨i, hi, hei⟩ := List.mem_iff_getElem.mp he
    have hname : (t.indexes.getD i dummyIndex).name = e.name := by
      rw [List.getD_eq_getElem _ _ hi, hei]
    obtain ⟨m, hm⟩ := bsearchGo_complete t.indexes e.name hsorted
      t.indexes.length 0 t.indexes.length i le_rfl (by omega) (by omega) hi hname
    obtain ⟨hm1, hm2, hm3⟩ := bsearchGo_sound t.indexes e.name _ _ _ _ le_rfl hm
    have heqname : (t.indexes.getD m dummyIndex).name = e.name :=
      (lexCompare_eq_iff _ _).mp hm3
    have hgm : t.indexes.getD m dummyIndex = t.indexes[m] :=
      List.getD_eq_getElem _ _ hm2
    have hme : t.indexes[m] = e := by
      rcases Nat.lt_trichotomy m i with h2 | h2 | h2
      · exfalso
        have hp := List.pairwise_iff_getElem.mp hsorted m i hm2 hi h2
        have hp' : lexCompare (t.indexes[m]).name (t.indexes[i]).name = .lt := hp
        rw [hei] at hp'
        rw [← hgm, heqname] at hp'
        rw [lexCompare_self] at hp'
        exact absurd hp' (by decide)
      · subst h2
        exact hei
      · exfalso
        have hp := List.pairwise_iff_getElem.mp hsorted i m hi hm2 h2
        have hp' : lexCompare (t.indexes[i]).name (t.indexes[m]).name = .lt := hp
        rw [hei] at hp'
        rw [← hgm, heqname] at hp'
        rw [lexCompare_self] at hp'
        exact absurd hp' (by decide)
    unfold TzDataIndexes.find_timezone
    rw [hm]
    simp only [Option.map_some']
    rw [hgm, hme]
  · intro habs
    cases hf : t.find_timezone name with
    | none => rfl
    | some e =>
      obtain ⟨hmem, hname⟩ := find_timezone_sound t name e hf
      exact absurd hname (habs e hmem)

/-- C7 witness: on a concrete sorted two-entry table, looking up the first
entry's name returns it and looking up an absent name returns none. -/
theorem claim_C7_witness :
    sampleTable.indexes.Pairwise entryNameLt ∧
    sampleTable.find_timezone [65] = some ⟨[65], 1, 2⟩ ∧
    sampleTable.find_timezone [67] = none :=
  ⟨by decide,
   (claim_C7_roundtrip sampleTable [67] (by decide)).1 ⟨[65], 1, 2⟩ (by decide),
   (claim_C7_roundtrip sampleTable [67] (by decide)).2 (by decide)⟩

/-- C8: extraction seeks to the absolute position entry offset plus data
offset; when that many bytes are available it returns exactly the
entry-length bytes found there (so the buffer has length exactly the
entry length), and otherwise it fails with an IO error. -/
theorem claim_C8_extraction (t : TzDataIndexes) (s : Stream) (hdr : TzDataHeader)
    (e : TzDataIndex) :
    (e.length ≤ s.data.length - (e.offset + hdr.data_offset) →
      t.find_tzdata s hdr e =
        .ok ((s.data.drop (e.offset + hdr.data_offset)).take e.length,
          ⟨s.data, e.offset + hdr.data_offset + e.length⟩) ∧
      ((s.data.drop (e.offset + hdr.data_offset)).take e.length).length = e.length) ∧
    (¬ e.length ≤ s.data.length - (e.offset + hdr.data_offset) →
      t.find_tzdata s hdr e = .error .ioError) := by
  constructor
  · intro hle
    have r := Stream.readExact_pos ⟨s.data, e.offset + hdr.data_offset⟩ e.length
      (by show e.length ≤ s.data.length - (e.offset + hdr.data_offset); exact hle)
    constructor
    · simp only [TzDataIndexes.find_tzdata, r]
    · simp only [List.length_take, List.length_drop]
      omega
  · intro hgt
    have r := Stream.readExact_neg ⟨s.data, e.offset + hdr.data_offset⟩ e.length
      (by show ¬ e.length ≤ s.data.length - (e.offset + hdr.data_offset); exact hgt)
    simp only [TzDataIndexes.find_tzdata, r]

/-- C8 witness: extracting the single entry of the tiny database returns
its 2-byte payload, of length exactly the recorded entry length. -/
theorem claim_C8_witness :
    ((⟨[65, 65], 0, 2⟩ : TzDataIndex).length ≤
      sampleDbBytes.length -
        ((⟨[65, 65], 0, 2⟩ : TzDataIndex).offset +
          (⟨sampleVersion, 24, 72, 272428⟩ : TzDataHeader).data_offset)) ∧
    (TzDataIndexes.find_tzdata ⟨[⟨[65, 65], 0, 2⟩]⟩ ⟨sampleDbBytes, 0⟩
        ⟨sampleVersion, 24, 72, 272428⟩ ⟨[65, 65], 0, 2⟩ =
      .ok ((sampleDbBytes.drop (0 + 72)).take 2, ⟨sampleDbBytes, 0 + 72 + 2⟩) ∧
     ((sampleDbBytes.drop (0 + 72)).take 2).length = 2) :=
  ⟨by decide,
   (claim_C8_extraction ⟨[⟨[65, 65], 0, 2⟩]⟩ ⟨sampleDbBytes, 0⟩
     ⟨sampleVersion, 24, 72, 272428⟩ ⟨[65, 65], 0, 2⟩).1 (by decide)⟩

/-- C10: for every table, sorted or not, a positive lookup result is one
of the table's entries and its name equals the queried name byte for
byte; a positive result is never a wrong entry. -/
theorem claim_C10_lookup_sound (t : TzDataIndexes) (name : List Nat) (e : TzDataIndex)
    (h : t.find_timezone name = some e) : e ∈ t.indexes ∧ e.name = name :=
  find_timezone_sound t name e h

/-- C10 witness: on a concrete table that violates the sort order, the
lookup that does succeed returns a member entry bearing the queried name. -/
theorem claim_C10_witness :
    (TzDataIndexes.mk [⟨[66], 9, 9⟩, ⟨[65], 1, 1⟩]).find_timezone [65] =
      some ⟨[65], 1, 1⟩ ∧
    (⟨[65], 1, 1⟩ ∈ (TzDataIndexes.mk [⟨[66], 9, 9⟩, ⟨[65], 1, 1⟩]).indexes ∧
      (⟨[65], 1, 1⟩ : TzDataIndex).name = [65]) :=
  ⟨by decide,
   claim_C10_lookup_sound ⟨[⟨[66], 9, 9⟩, ⟨[65], 1, 1⟩]⟩ [65] ⟨[65], 1, 1⟩ (by decide)⟩

/-- Case analysis of the one-call facade: for any index decoder plugged
into the shared header-decode, index-decode, lookup, extract pipeline, the
ok-none outcome characterizes exactly a successful decode with an absent
name, and every error of any stage propagates verbatim. -/
theorem facade_cases (newf : Stream → TzDataHeader → PResult (TzDataIndexes × Stream))
    (f : Stream → List Nat → PResult (Option (List Nat)))
    (hbody : ∀ (s : Stream) (name : List Nat), f s name =
      match TzDataHeader.new s with
      | .error e => .error e
      | .panicked => .panicked
      | .ok (header, s1) =>
        match newf s1 header with
        | .error e => .error e
        | .panicked => .panicked
        | .ok (index, s2) =>
          match index.find_timezone name with
          | some entry =>
            match index.find_tzdata s2 header entry with
            | .error e => .error e
            | .panicked => .panicked
            | .ok (buf, _) => .ok (some buf)
          | none => .ok none)
    (s : Stream) (name : List Nat) :
    ((f s name = .ok none) ↔
      ∃ hdr s1 idx s2, TzDataHeader.new s = .ok (hdr, s1) ∧
        newf s1 hdr = .ok (idx, s2) ∧ idx.find_timezone name = none) ∧
    (∀ err, TzDataHeader.new s = .error err → f s name = .error err) ∧
    (∀ err hdr s1, TzDataHeader.new s = .ok (hdr, s1) → newf s1 hdr = .error err →
      f s name = .error err) ∧
    (∀ err hdr s1 idx s2 entry, TzDataHeader.new s = .ok (hdr, s1) →
      newf s1 hdr = .ok (idx, s2) → idx.find_timezone name = some entry →
      idx.find_tzdata s2 hdr entry = .error err → f s name = .error err) := by
  refine ⟨⟨?_, ?_⟩, ?_, ?_, ?_⟩
  · intro h
    rw [hbody s name] at h
    cases h1 : TzDataHeader.new s with
    | error e => simp [h1] at h
    | panicked => simp [h1] at h
    | ok pair =>
      obtain ⟨hdr, s1⟩ := pair
      simp only [h1] at h
      cases h2 : newf s1 hdr with
      | error e => simp [h2] at h
      | panicked => simp [h2] at h
      | ok pair2 =>
        obtain ⟨idx, s2⟩ := pair2
        simp only [h2] at h
        cases h3 : idx.find_timezone name with
        | some entry =>
          simp only [h3] at h
          cases h4 : idx.find_tzdata s2 hdr entry with
          | error e => simp [h4] at h
          | panicked => simp [h4] at h
          | ok pair3 =>
            obtain ⟨buf, s3⟩ := pair3
            simp [h4] at h
        | none => exact ⟨hdr, s1, idx, s2, rfl, h2, h3⟩
  · rintro ⟨hdr, s1, idx, s2, h1, h2, h3⟩
    rw [hbody s name]
    simp only [h1, h2, h3]
  · intro err h1
    rw [hbody s name]
    simp only [h1]
  · intro err hdr s1 h1 h2
    rw [hbody s name]
    simp only [h1, h2]
  · intro err hdr s1 idx s2 entry h1 h2 h3 h4
    rw [hbody s name]
    simp only [h1, h2, h3, h4]

/-- C9: both one-call lookups distinguish absence from failure: they
return ok-none exactly when the header and the index decode succeed but
the queried name is absent from the table, and a header error, an index
decoding error, or an extraction error is propagated verbatim as an
error; so an absent name never produces an error and a failure never
produces ok-none. -/
theorem claim_C9_not_found_vs_error (s : Stream) (name : List Nat) :
    (((find_tz_data_android s name = .ok none) ↔
       ∃ hdr s1 idx s2, TzDataHeader.new s = .ok (hdr, s1) ∧
         TzDataIndexes.new_android s1 hdr = .ok (idx, s2) ∧
         idx.find_timezone name = none) ∧
     (∀ err, TzDataHeader.new s = .error err →
       find_tz_data_android s name = .error err) ∧
     (∀ err hdr s1, TzDataHeader.new s = .ok (hdr, s1) →
       TzDataIndexes.new_android s1 hdr = .error err →
       find_tz_data_android s name = .error err) ∧
     (∀ err hdr s1 idx s2 entry, TzDataHeader.new s = .ok (hdr, s1) →
       TzDataIndexes.new_android s1 hdr = .ok (idx, s2) →
       idx.find_timezone name = some entry →
       idx.find_tzdata s2 hdr entry = .error err →
       find_tz_data_android s name = .error err)) ∧
    (((find_tz_data_ohos s name = .ok none) ↔
       ∃ hdr s1 idx s2, TzDataHeader.new s = .ok (hdr, s1) ∧
         TzDataIndexes.new_ohos s1 hdr = .ok (idx, s2) ∧
         idx.find_timezone name = none) ∧
     (∀ err, TzDataHeader.new s = .error err →
       find_tz_data_ohos s name = .error err) ∧
     (∀ err hdr s1, TzDataHeader.new s = .ok (hdr, s1) →
       TzDataIndexes.new_ohos s1 hdr = .error err →
       find_tz_data_ohos s name = .error err) ∧
     (∀ err hdr s1 idx s2 entry, TzDataHeader.new s = .ok (hdr, s1) →
       TzDataIndexes.new_ohos s1 hdr = .ok (idx, s2) →
       idx.find_timezone name = some entry →
       idx.find_tzdata s2 hdr entry = .error err →
       find_tz_data_ohos s name = .error err)) :=
  ⟨facade_cases TzDataIndexes.new_android find_tz_data_android (fun _ _ => rfl) s name,
   facade_cases TzDataIndexes.new_ohos find_tz_data_ohos (fun _ _ => rfl) s name⟩

/-- C9 witness: concrete scenario C on the tiny database, a name absent
from the table yields ok-none, not an error. -/
theorem claim_C9_witness :
    find_tz_data_ohos ⟨sampleDbBytes, 0⟩ [66, 66] = .ok none :=
  (claim_C9_not_found_vs_error ⟨sampleDbBytes, 0⟩ [66, 66]).2.1.mpr
    ⟨⟨sampleVersion, 24, 72, 272428⟩, ⟨sampleDbBytes, 24⟩, ⟨[⟨[65, 65], 0, 2⟩]⟩,
     ⟨sampleDbBytes, 72⟩, by decide, by decide, by decide⟩

end ZoneInfoDb
